import Mathlib

/-!
Shallow embedding of the bytecode interpreter in `src/src/lib.rs`
(`enum ByteCode`, `struct Interpreter` and its methods), together with
theorems settling the specified properties of the evaluator.

Modelling conventions:
* The number stack (`Vec<i32>` in the source, pushed and popped at the end)
  is a `List Int` whose head is the top of the stack.
* The variable table (`HashMap<&str, i32>`) is an association list in which
  an insert conses the new binding in front; `List.lookup` returns the most
  recent binding, matching `HashMap::insert` overwriting and `get` reading.
* Numbers are unbounded integers standing for `i32` values; wrap-around of
  `i32` arithmetic is outside the model, but the `as usize` cast the source
  applies to the loop repeat count is modelled exactly (`i32AsUsize`).
* A Rust runtime panic (division or remainder by zero) is the dedicated
  outcome `Outcome.fault`, distinct from every `Err` the source returns.
-/

namespace SmallBytecode

/-- The instruction set, mirroring `enum ByteCode` in the source. -/
inductive ByteCode where
  | loadVal (n : Int)
  | writeVar (v : String)
  | readVar (v : String)
  | add
  | subtract
  | multiply
  | divide
  | modulo
  | loop
  | endLoop
deriving DecidableEq, Repr

/-- The six terminal error kinds of the evaluator.  The source represents
them as fixed `&'static str` messages; `EvalError.message` recovers the
exact message text of each kind. -/
inductive EvalError where
  | emptyResult
  | missingValueForBinding
  | unknownVariable
  | missingLoopCount
  | unterminatedLoop
  | insufficientOperands
deriving DecidableEq, Repr

/-- The exact message string the source returns for each error kind. -/
def EvalError.message : EvalError → String
  | .emptyResult => "Incorrectly formatted expression: no return value."
  | .missingValueForBinding => "Trying to bind variable without value."
  | .unknownVariable => "Trying to read variable that does not exist."
  | .missingLoopCount => "A number is required to use Loop."
  | .unterminatedLoop => "There is no EndLoop instruction associated to the previous Loop."
  | .insufficientOperands => "Incorrectly formatted expression: expecting 2 operands."

/-- Result of a fallible interpreter step: `ok`/`err` mirror
`Result<_, &'static str>` in the source, and `fault` models a Rust runtime
panic (an abort that produces no `Result` value at all). -/
inductive Outcome (α : Type) where
  | ok (a : α)
  | err (e : EvalError)
  | fault
deriving DecidableEq, Repr

/-- Sequencing of outcomes: the `?` operator of the source, with a panic
propagating as a panic. -/
def Outcome.bind {α β : Type} : Outcome α → (α → Outcome β) → Outcome β
  | .ok a, f => f a
  | .err e, _ => .err e
  | .fault, _ => .fault

/-- Interpreter state: `struct Interpreter` in the source. -/
structure Interpreter where
  number_stack : List Int
  variables_map : List (String × Int)
deriving DecidableEq, Repr

/-- Mirrors `Interpreter::new`: empty stack, empty variable table. -/
def Interpreter.new : Interpreter := ⟨[], []⟩

/-- Mirrors `bind_variable`: pop the top of the number stack and bind it to
`variable`; error if the stack is empty. -/
def bindVariable (varName : String) (s : Interpreter) : Outcome Interpreter :=
  match s.number_stack with
  | rvalue :: rest => .ok ⟨rest, (varName, rvalue) :: s.variables_map⟩
  | [] => .err .missingValueForBinding

/-- Mirrors `read_variable`: push the value bound to `variable`; error if the
variable is unbound. -/
def readVariable (varName : String) (s : Interpreter) : Outcome Interpreter :=
  match s.variables_map.lookup varName with
  | some number => .ok ⟨number :: s.number_stack, s.variables_map⟩
  | none => .err .unknownVariable

/-- Mirrors `perform_binary_operation`: `a` is the first operand popped (the top of
the stack), `b` the second.  Any missing operand is the
`InsufficientOperands` error.  The source computes `Ok(b / a)` resp.
`Ok(b % a)` with Rust `i32` semantics, i.e. truncated division/remainder,
which panic when `a = 0`; that panic is the `fault` branch. -/
def performBinaryOperation (bytecode : ByteCode)
    (first_operand second_operand : Option Int) : Outcome Int :=
  match bytecode, first_operand, second_operand with
  | .add, some a, some b => .ok (b + a)
  | .subtract, some a, some b => .ok (b - a)
  | .multiply, some a, some b => .ok (b * a)
  | .divide, some a, some b => if a = 0 then .fault else .ok (Int.tdiv b a)
  | .modulo, some a, some b => if a = 0 then .fault else .ok (Int.tmod b a)
  | _, _, _ => .err .insufficientOperands

/-- Mirrors `binary_calculus`: pop two operands (popping an empty stack yields
`none`), perform the operation, push the result. -/
def binaryCalculus (bytecode : ByteCode) (s : Interpreter) : Outcome Interpreter :=
  let first_operand := s.number_stack.head?
  let second_operand := s.number_stack.tail.head?
  Outcome.bind (performBinaryOperation bytecode first_operand second_operand)
    (fun v => .ok ⟨v :: s.number_stack.tail.tail, s.variables_map⟩)

/-- Mirrors `next_endloop_bytecode`: index of the first `EndLoop` in the given
sequence (the source collects every `EndLoop` index and takes the first,
i.e. exactly the first index satisfying the test), or `UnterminatedLoop`
if there is none. -/
def nextEndloopBytecode (bytecodes : List ByteCode) : Outcome Nat :=
  match bytecodes.findIdx? (fun b => b == ByteCode.endLoop) with
  | some i => .ok i
  | none => .err .unterminatedLoop

/-- The `as usize` cast applied to the popped repeat count in `repeat`:
two's-complement reinterpretation of an `i32` as a 64-bit unsigned
integer, so a negative count `n` becomes `2 ^ 64 + n`. -/
def i32AsUsize (n : Int) : Nat := (n % (2 ^ 64 : Int)).toNat

mutual

/-- Mirrors `evaluate_bytecodes`: walk the sequence instruction by instruction.
The source iterates with an index and, on `Loop`, calls `repeat`, which
slices relative to that index; every slice taken lies inside the suffix
starting at the current index, so the walk is modelled structurally on
that suffix.  As in the source, `repeat` first scans for the `EndLoop`
(so a missing `EndLoop` is reported before a missing count), then pops
the count, runs the body — the sub-sequence strictly between the `Loop`
and the first `EndLoop` — that many times; afterwards the source's `for`
loop resumes at the next index, i.e. the walk passes through the body
instructions once more before reaching the `EndLoop` no-op. -/
def evaluateBytecodes : List ByteCode → Interpreter → Outcome Interpreter
  | [], s => .ok s
  | ByteCode.loadVal number :: rest, s =>
      evaluateBytecodes rest ⟨number :: s.number_stack, s.variables_map⟩
  | ByteCode.writeVar v :: rest, s =>
      match bindVariable v s with
      | .ok s' => evaluateBytecodes rest s'
      | .err e => .err e
      | .fault => .fault
  | ByteCode.readVar v :: rest, s =>
      match readVariable v s with
      | .ok s' => evaluateBytecodes rest s'
      | .err e => .err e
      | .fault => .fault
  | ByteCode.add :: rest, s =>
      match binaryCalculus ByteCode.add s with
      | .ok s' => evaluateBytecodes rest s'
      | .err e => .err e
      | .fault => .fault
  | ByteCode.subtract :: rest, s =>
      match binaryCalculus ByteCode.subtract s with
      | .ok s' => evaluateBytecodes rest s'
      | .err e => .err e
      | .fault => .fault
  | ByteCode.multiply :: rest, s =>
      match binaryCalculus ByteCode.multiply s with
      | .ok s' => evaluateBytecodes rest s'
      | .err e => .err e
      | .fault => .fault
  | ByteCode.divide :: rest, s =>
      match binaryCalculus ByteCode.divide s with
      | .ok s' => evaluateBytecodes rest s'
      | .err e => .err e
      | .fault => .fault
  | ByteCode.modulo :: rest, s =>
      match binaryCalculus ByteCode.modulo s with
      | .ok s' => evaluateBytecodes rest s'
      | .err e => .err e
      | .fault => .fault
  | ByteCode.loop :: rest, s =>
      match nextEndloopBytecode (ByteCode.loop :: rest) with
      | .err e => .err e
      | .fault => .fault
      | .ok j =>
        match s.number_stack with
        | [] => .err .missingLoopCount
        | k :: stackRest =>
          match repeatBody (rest.take (j - 1)) (i32AsUsize k) ⟨stackRest, s.variables_map⟩ with
          | .ok s' => evaluateBytecodes rest s'
          | .err e => .err e
          | .fault => .fault
  | ByteCode.endLoop :: rest, s => evaluateBytecodes rest s
termination_by bcs _ => (bcs.length, 0, 0)

/-- The `for _ in 0..time_number_to_repeat` loop of `repeat`: evaluate the
loop body `n` more times, threading the state. -/
def repeatBody : List ByteCode → Nat → Interpreter → Outcome Interpreter
  | _, 0, s => .ok s
  | body, n + 1, s =>
      match evaluateBytecodes body s with
      | .ok s' => repeatBody body n s'
      | .err e => .err e
      | .fault => .fault
termination_by body n _ => (body.length, 1, n)

end

/-- Mirrors `Interpreter::evaluate`: run the bytecodes, then pop and return the top
of the number stack; `EmptyResult` if the stack is empty.  The `ok` case
carries the updated interpreter (the `&mut self` of the source), so
sequential calls on one instance are chained by passing the state on. -/
def evaluate (s : Interpreter) (bytecodes : List ByteCode) : Outcome (Int × Interpreter) :=
  match evaluateBytecodes bytecodes s with
  | .ok s' =>
    match s'.number_stack with
    | number :: restStack => .ok (number, ⟨restStack, s'.variables_map⟩)
    | [] => .err .emptyResult
  | .err e => .err e
  | .fault => .fault

/-! ### Helper lemmas -/

theorem Outcome.bind_assoc {α β γ : Type} (x : Outcome α) (f : α → Outcome β)
    (g : β → Outcome γ) :
    Outcome.bind (Outcome.bind x f) g = Outcome.bind x (fun a => Outcome.bind (f a) g) := by
  cases x <;> rfl

/-- The error-propagating matches inside the evaluator are exactly
`Outcome.bind`. -/
theorem match_eq_bind {α β : Type} (o : Outcome α) (f : α → Outcome β) :
    (match o with
      | .ok a => f a
      | .err e => .err e
      | .fault => .fault) = Outcome.bind o f := by
  cases o <;> rfl

theorem nextEndloopBytecode_eq_ok_iff {bs : List ByteCode} {j : Nat} :
    nextEndloopBytecode bs = .ok j ↔
      bs.findIdx? (fun b => b == ByteCode.endLoop) = some j := by
  unfold nextEndloopBytecode
  rcases bs.findIdx? (fun b => b == ByteCode.endLoop) with _ | i <;> simp

theorem nextEndloopBytecode_err_iff {bs : List ByteCode} :
    nextEndloopBytecode bs = .err .unterminatedLoop ↔ ByteCode.endLoop ∉ bs := by
  unfold nextEndloopBytecode
  rcases h : bs.findIdx? (fun b => b == ByteCode.endLoop) with _ | i
  · rw [List.findIdx?_eq_none_iff] at h
    constructor
    · intro _ hmem
      have := h _ hmem
      simp at this
    · intro _
      rfl
  · rw [List.findIdx?_eq_some_iff_getElem] at h
    obtain ⟨hlt, hp, -⟩ := h
    simp only [beq_iff_eq] at hp
    constructor
    · intro hc
      exact Outcome.noConfusion hc
    · intro hnm
      exact absurd (hp ▸ List.getElem_mem hlt) hnm

/-- The index returned by the `EndLoop` scan points at an `EndLoop`, and no
earlier position holds one: the scan finds the first `EndLoop`. -/
theorem nextEndloopBytecode_first {bs : List ByteCode} {j : Nat}
    (h : nextEndloopBytecode bs = .ok j) :
    bs[j]? = some ByteCode.endLoop ∧
      ∀ i, i < j → bs[i]? ≠ some ByteCode.endLoop := by
  rw [nextEndloopBytecode_eq_ok_iff, List.findIdx?_eq_some_iff_getElem] at h
  obtain ⟨hlt, hp, hmin⟩ := h
  simp only [beq_iff_eq] at hp
  refine ⟨by rw [List.getElem?_eq_getElem hlt, hp], fun i hij hmem => ?_⟩
  have hi : i < bs.length := Nat.lt_trans hij hlt
  have hne := hmin i hij
  rw [List.getElem?_eq_getElem hi] at hmem
  simp only [beq_iff_eq] at hne
  exact hne (by injection hmem)

/-- On `Loop :: body ++ EndLoop :: after` with `body` free of `EndLoop`,
the scan stops at the delimiter at index `body.length + 1`. -/
theorem nextEndloopBytecode_delimited {body after : List ByteCode}
    (hb : ByteCode.endLoop ∉ body) :
    nextEndloopBytecode (ByteCode.loop :: (body ++ ByteCode.endLoop :: after)) =
      .ok (body.length + 1) := by
  rw [nextEndloopBytecode_eq_ok_iff]
  have key : ∀ (bo : List ByteCode), ByteCode.endLoop ∉ bo →
      (bo ++ ByteCode.endLoop :: after).findIdx? (fun b => b == ByteCode.endLoop) =
        some bo.length := by
    intro bo
    induction bo with
    | nil =>
      intro _
      simp [List.findIdx?_cons]
    | cons x bo ih =>
      intro hx
      have hxne : (x == ByteCode.endLoop) = false := by
        simp only [beq_eq_false_iff_ne, ne_eq]
        exact fun hc => hx (hc ▸ List.mem_cons_self x bo)
      simp only [List.cons_append, List.findIdx?_cons, hxne, List.findIdx?_succ,
        ih (fun hc => hx (List.mem_cons_of_mem x hc))]
      simp
  have hl : ((ByteCode.loop : ByteCode) == ByteCode.endLoop) = false := by decide
  simp only [List.cons_append, List.findIdx?_cons, hl, List.findIdx?_succ, key body hb]
  simp

/-- Iterating the body once more at the end. -/
theorem repeatBody_succ_last (body : List ByteCode) (n : Nat) (s : Interpreter) :
    repeatBody body (n + 1) s =
      Outcome.bind (repeatBody body n s) (evaluateBytecodes body) := by
  induction n generalizing s with
  | zero =>
    simp only [repeatBody]
    cases h : evaluateBytecodes body s with
    | ok s' => simp only [h, Outcome.bind]
    | err e => simp only [h, Outcome.bind]
    | fault => simp only [h, Outcome.bind]
  | succ n ih =>
    rw [repeatBody]
    conv_rhs => rw [repeatBody]
    cases h : evaluateBytecodes body s with
    | ok s' =>
      simp only [h]
      exact ih s'
    | err e => simp only [h, Outcome.bind]
    | fault => simp only [h, Outcome.bind]

/-- Sequences free of loop markers: they execute left to right with no
slicing. -/
def straightLine (bs : List ByteCode) : Prop :=
  ∀ bc ∈ bs, bc ≠ ByteCode.loop ∧ bc ≠ ByteCode.endLoop

instance (bs : List ByteCode) : Decidable (straightLine bs) :=
  inferInstanceAs (Decidable (∀ bc ∈ bs, bc ≠ ByteCode.loop ∧ bc ≠ ByteCode.endLoop))

/-- Walking a loop-marker-free prefix followed by anything decomposes into
walking the prefix, then the rest. -/
theorem evaluateBytecodes_append_straight {xs : List ByteCode} (hx : straightLine xs)
    (ys : List ByteCode) (s : Interpreter) :
    evaluateBytecodes (xs ++ ys) s =
      Outcome.bind (evaluateBytecodes xs s) (evaluateBytecodes ys) := by
  induction xs generalizing s with
  | nil => simp [evaluateBytecodes, Outcome.bind]
  | cons bc xs ih =>
    have hbc := hx bc (List.mem_cons_self bc xs)
    have hxs : straightLine xs := fun b hb => hx b (List.mem_cons_of_mem bc hb)
    cases bc with
    | loop => exact absurd rfl hbc.1
    | endLoop => exact absurd rfl hbc.2
    | loadVal n =>
      simp only [List.cons_append, evaluateBytecodes]
      exact ih hxs _
    | writeVar v =>
      simp only [List.cons_append, evaluateBytecodes]
      cases h : bindVariable v s with
      | ok s' =>
        simp only [h]
        exact ih hxs s'
      | err e => simp only [h, Outcome.bind]
      | fault => simp only [h, Outcome.bind]
    | readVar v =>
      simp only [List.cons_append, evaluateBytecodes]
      cases h : readVariable v s with
      | ok s' =>
        simp only [h]
        exact ih hxs s'
      | err e => simp only [h, Outcome.bind]
      | fault => simp only [h, Outcome.bind]
    | add =>
      simp only [List.cons_append, evaluateBytecodes]
      cases h : binaryCalculus ByteCode.add s with
      | ok s' =>
        simp only [h]
        exact ih hxs s'
      | err e => simp only [h, Outcome.bind]
      | fault => simp only [h, Outcome.bind]
    | subtract =>
      simp only [List.cons_append, evaluateBytecodes]
      cases h : binaryCalculus ByteCode.subtract s with
      | ok s' =>
        simp only [h]
        exact ih hxs s'
      | err e => simp only [h, Outcome.bind]
      | fault => simp only [h, Outcome.bind]
    | multiply =>
      simp only [List.cons_append, evaluateBytecodes]
      cases h : binaryCalculus ByteCode.multiply s with
      | ok s' =>
        simp only [h]
        exact ih hxs s'
      | err e => simp only [h, Outcome.bind]
      | fault => simp only [h, Outcome.bind]
    | divide =>
      simp only [List.cons_append, evaluateBytecodes]
      cases h : binaryCalculus ByteCode.divide s with
      | ok s' =>
        simp only [h]
        exact ih hxs s'
      | err e => simp only [h, Outcome.bind]
      | fault => simp only [h, Outcome.bind]
    | modulo =>
      simp only [List.cons_append, evaluateBytecodes]
      cases h : binaryCalculus ByteCode.modulo s with
      | ok s' =>
        simp only [h]
        exact ih hxs s'
      | err e => simp only [h, Outcome.bind]
      | fault => simp only [h, Outcome.bind]

/-- Iterating a body consisting of one `LoadVal c` pushes `n` copies. -/
theorem repeatBody_loadVal (c : Int) (n : Nat) (s : Interpreter) :
    repeatBody [ByteCode.loadVal c] n s =
      .ok ⟨List.replicate n c ++ s.number_stack, s.variables_map⟩ := by
  induction n generalizing s with
  | zero => simp [repeatBody]
  | succ n ih =>
    rw [repeatBody]
    have hstep : evaluateBytecodes [ByteCode.loadVal c] s =
        .ok ⟨c :: s.number_stack, s.variables_map⟩ := by
      simp [evaluateBytecodes]
    simp only [hstep]
    rw [ih]
    simp [List.replicate_succ']

/-- The `Loop` dispatch with a count available: scan, pop, iterate the
sliced body, then resume the walk at the instruction after the `Loop`. -/
theorem evaluateBytecodes_loop {rest : List ByteCode} {j : Nat}
    (hj : nextEndloopBytecode (ByteCode.loop :: rest) = .ok j)
    (k : Int) (stackRest : List Int) (vars : List (String × Int)) :
    evaluateBytecodes (ByteCode.loop :: rest) ⟨k :: stackRest, vars⟩ =
      Outcome.bind (repeatBody (rest.take (j - 1)) (i32AsUsize k) ⟨stackRest, vars⟩)
        (evaluateBytecodes rest) := by
  rw [evaluateBytecodes, hj]
  show (match repeatBody (rest.take (j - 1)) (i32AsUsize k) ⟨stackRest, vars⟩ with
    | Outcome.ok s' => evaluateBytecodes rest s'
    | Outcome.err e => Outcome.err e
    | Outcome.fault => Outcome.fault) =
    Outcome.bind (repeatBody (rest.take (j - 1)) (i32AsUsize k) ⟨stackRest, vars⟩)
      (evaluateBytecodes rest)
  generalize repeatBody (rest.take (j - 1)) (i32AsUsize k) ⟨stackRest, vars⟩ = o
  cases o <;> rfl

/-- The `Loop` dispatch with an `EndLoop` ahead but an empty stack. -/
theorem evaluateBytecodes_loop_noCount {rest : List ByteCode} {j : Nat}
    (hj : nextEndloopBytecode (ByteCode.loop :: rest) = .ok j)
    (vars : List (String × Int)) :
    evaluateBytecodes (ByteCode.loop :: rest) ⟨[], vars⟩ = .err .missingLoopCount := by
  rw [evaluateBytecodes, hj]

/-- The `Loop` dispatch with no `EndLoop` ahead: the scan fails first,
whatever the stack holds. -/
theorem evaluateBytecodes_loop_unterminated {rest : List ByteCode}
    (h : ByteCode.endLoop ∉ ByteCode.loop :: rest) (s : Interpreter) :
    evaluateBytecodes (ByteCode.loop :: rest) s = .err .unterminatedLoop := by
  rw [evaluateBytecodes, nextEndloopBytecode_err_iff.mpr h]

theorem evaluateBytecodes_nil (s : Interpreter) :
    evaluateBytecodes [] s = .ok s := by
  rw [evaluateBytecodes]

theorem evaluateBytecodes_loadVal (n : Int) (rest : List ByteCode) (s : Interpreter) :
    evaluateBytecodes (ByteCode.loadVal n :: rest) s =
      evaluateBytecodes rest ⟨n :: s.number_stack, s.variables_map⟩ := by
  rw [evaluateBytecodes]

theorem evaluateBytecodes_endLoop (rest : List ByteCode) (s : Interpreter) :
    evaluateBytecodes (ByteCode.endLoop :: rest) s = evaluateBytecodes rest s := by
  rw [evaluateBytecodes]

/-! ### The specified loop semantics, as a second evaluator

The specification reads the walk differently from the source: after a
`Loop` has run its body `k` times it says evaluation continues after the
matching `EndLoop` ("loop bodies are only entered via the Loop dispatch"),
so the body runs exactly `k` times.  The pair of definitions below follows
the specification's words on exactly that point and is identical to
`evaluateBytecodes`/`repeatBody` everywhere else; comparing the two
evaluators settles the claims about how many times a loop body runs. -/

mutual

/-- The walk as the specification describes it: same dispatch as
`evaluateBytecodes`, except that after a `Loop` the walk resumes past the
scanned `EndLoop`, so the body runs exactly `k` times. -/
def claimedEvaluateBytecodes : List ByteCode → Interpreter → Outcome Interpreter
  | [], s => .ok s
  | ByteCode.loadVal number :: rest, s =>
      claimedEvaluateBytecodes rest ⟨number :: s.number_stack, s.variables_map⟩
  | ByteCode.writeVar v :: rest, s =>
      match bindVariable v s with
      | .ok s' => claimedEvaluateBytecodes rest s'
      | .err e => .err e
      | .fault => .fault
  | ByteCode.readVar v :: rest, s =>
      match readVariable v s with
      | .ok s' => claimedEvaluateBytecodes rest s'
      | .err e => .err e
      | .fault => .fault
  | ByteCode.add :: rest, s =>
      match binaryCalculus ByteCode.add s with
      | .ok s' => claimedEvaluateBytecodes rest s'
      | .err e => .err e
      | .fault => .fault
  | ByteCode.subtract :: rest, s =>
      match binaryCalculus ByteCode.subtract s with
      | .ok s' => claimedEvaluateBytecodes rest s'
      | .err e => .err e
      | .fault => .fault
  | ByteCode.multiply :: rest, s =>
      match binaryCalculus ByteCode.multiply s with
      | .ok s' => claimedEvaluateBytecodes rest s'
      | .err e => .err e
      | .fault => .fault
  | ByteCode.divide :: rest, s =>
      match binaryCalculus ByteCode.divide s with
      | .ok s' => claimedEvaluateBytecodes rest s'
      | .err e => .err e
      | .fault => .fault
  | ByteCode.modulo :: rest, s =>
      match binaryCalculus ByteCode.modulo s with
      | .ok s' => claimedEvaluateBytecodes rest s'
      | .err e => .err e
      | .fault => .fault
  | ByteCode.loop :: rest, s =>
      match nextEndloopBytecode (ByteCode.loop :: rest) with
      | .err e => .err e
      | .fault => .fault
      | .ok j =>
        match s.number_stack with
        | [] => .err .missingLoopCount
        | k :: stackRest =>
          match claimedRepeatBody (rest.take (j - 1)) (i32AsUsize k) ⟨stackRest, s.variables_map⟩ with
          | .ok s' => claimedEvaluateBytecodes (rest.drop j) s'
          | .err e => .err e
          | .fault => .fault
  | ByteCode.endLoop :: rest, s => claimedEvaluateBytecodes rest s
termination_by bcs _ => (bcs.length, 0, 0)

/-- Body iteration for the specified semantics. -/
def claimedRepeatBody : List ByteCode → Nat → Interpreter → Outcome Interpreter
  | _, 0, s => .ok s
  | body, n + 1, s =>
      match claimedEvaluateBytecodes body s with
      | .ok s' => claimedRepeatBody body n s'
      | .err e => .err e
      | .fault => .fault
termination_by body n _ => (body.length, 1, n)

end

/-- Runs `evaluate` over the specified walk. -/
def claimedEvaluate (s : Interpreter) (bytecodes : List ByteCode) : Outcome (Int × Interpreter) :=
  match claimedEvaluateBytecodes bytecodes s with
  | .ok s' =>
    match s'.number_stack with
    | number :: restStack => .ok (number, ⟨restStack, s'.variables_map⟩)
    | [] => .err .emptyResult
  | .err e => .err e
  | .fault => .fault

/-! ### Claim theorems -/

/-- Claim C2 is false on the code at the input `[Loop]` with an empty
stack: `repeat` scans for the `EndLoop` before popping the count, so the
evaluator reports `UnterminatedLoop`, not `MissingLoopCount` — even though
no repeat count was available. -/
theorem C2_counterexample :
    evaluate Interpreter.new [ByteCode.loop] = .err .unterminatedLoop ∧
    evaluate Interpreter.new [ByteCode.loop] ≠ .err .missingLoopCount := by
  have h : evaluate Interpreter.new [ByteCode.loop] = .err .unterminatedLoop := by
    simp [evaluate, evaluateBytecodes, nextEndloopBytecode]
  refine ⟨h, ?_⟩
  rw [h]
  intro hc
  injection hc with he
  exact EvalError.noConfusion he

/-- Claim C2, amended: the `EndLoop` scan runs before the count is popped.
A `Loop` with no `EndLoop` ahead fails with `UnterminatedLoop` whatever the
stack holds; a `Loop` with an `EndLoop` ahead and an empty stack fails with
`MissingLoopCount`. -/
theorem C2_loop_error_order :
    (∀ (rest : List ByteCode) (s : Interpreter),
        ByteCode.endLoop ∉ ByteCode.loop :: rest →
        evaluateBytecodes (ByteCode.loop :: rest) s = .err .unterminatedLoop) ∧
    (∀ (rest : List ByteCode) (vars : List (String × Int)),
        ByteCode.endLoop ∈ rest →
        evaluateBytecodes (ByteCode.loop :: rest) ⟨[], vars⟩ = .err .missingLoopCount) := by
  constructor
  · intro rest s h
    exact evaluateBytecodes_loop_unterminated h s
  · intro rest vars h
    have hex : ∃ j, nextEndloopBytecode (ByteCode.loop :: rest) = .ok j := by
      rcases hfi : (ByteCode.loop :: rest).findIdx? (fun b => b == ByteCode.endLoop) with _ | i
      · rw [List.findIdx?_eq_none_iff] at hfi
        have := hfi ByteCode.endLoop (List.mem_cons_of_mem _ h)
        simp at this
      · exact ⟨i, nextEndloopBytecode_eq_ok_iff.mpr hfi⟩
    obtain ⟨j, hj⟩ := hex
    exact evaluateBytecodes_loop_noCount hj vars

/-- Concrete instances of `C2_loop_error_order`. -/
theorem C2_loop_error_order_witness :
    evaluateBytecodes [ByteCode.loop] Interpreter.new = .err .unterminatedLoop ∧
    evaluateBytecodes [ByteCode.loop, ByteCode.endLoop] ⟨[], []⟩ = .err .missingLoopCount :=
  ⟨C2_loop_error_order.1 [] Interpreter.new (by decide),
   C2_loop_error_order.2 [ByteCode.endLoop] [] (by decide)⟩

/-- Claim C5: a binary operator pops `a` (most recently pushed) then `b`
and pushes `b <op> a`; for division and remainder this is conditional on a
non-zero divisor, the case the error taxonomy leaves unguarded.  In
particular `LoadValue 10; LoadValue 3; Subtract` evaluates to `Ok 7`. -/
theorem C5_operand_order :
    (∀ (a b : Int) (restStack : List Int) (vars : List (String × Int)),
        binaryCalculus ByteCode.add ⟨a :: b :: restStack, vars⟩ =
          .ok ⟨(b + a) :: restStack, vars⟩ ∧
        binaryCalculus ByteCode.subtract ⟨a :: b :: restStack, vars⟩ =
          .ok ⟨(b - a) :: restStack, vars⟩ ∧
        binaryCalculus ByteCode.multiply ⟨a :: b :: restStack, vars⟩ =
          .ok ⟨(b * a) :: restStack, vars⟩ ∧
        (a ≠ 0 → binaryCalculus ByteCode.divide ⟨a :: b :: restStack, vars⟩ =
          .ok ⟨Int.tdiv b a :: restStack, vars⟩) ∧
        (a ≠ 0 → binaryCalculus ByteCode.modulo ⟨a :: b :: restStack, vars⟩ =
          .ok ⟨Int.tmod b a :: restStack, vars⟩)) ∧
    evaluate Interpreter.new [ByteCode.loadVal 10, ByteCode.loadVal 3, ByteCode.subtract] =
      .ok (7, ⟨[], []⟩) := by
  constructor
  · intro a b restStack vars
    refine ⟨rfl, rfl, rfl, fun ha => ?_, fun ha => ?_⟩
    · simp [binaryCalculus, performBinaryOperation, ha, Outcome.bind]
    · simp [binaryCalculus, performBinaryOperation, ha, Outcome.bind]
  · simp [evaluate, evaluateBytecodes, binaryCalculus, performBinaryOperation,
      Outcome.bind, Interpreter.new]

/-- Concrete instance of `C5_operand_order`: `12 / 3` pushes `4`. -/
theorem C5_operand_order_witness :
    binaryCalculus ByteCode.divide ⟨[3, 12], []⟩ = .ok ⟨[4], []⟩ :=
  (C5_operand_order.1 3 12 [] []).2.2.2.1 (by decide)

/-- Claim C7: a successful run returns the top of the final stack, with any
further leftovers ignored; an empty final stack — in particular the empty
program on a fresh interpreter — is the `EmptyResult` error. -/
theorem C7_result_from_stack_top :
    (∀ (bcs : List ByteCode) (s s2 : Interpreter) (v : Int) (restStack : List Int),
        evaluateBytecodes bcs s = .ok s2 → s2.number_stack = v :: restStack →
        evaluate s bcs = .ok (v, ⟨restStack, s2.variables_map⟩)) ∧
    (∀ (bcs : List ByteCode) (s s2 : Interpreter),
        evaluateBytecodes bcs s = .ok s2 → s2.number_stack = [] →
        evaluate s bcs = .err .emptyResult) ∧
    evaluate Interpreter.new [] = .err .emptyResult := by
  refine ⟨?_, ?_, ?_⟩
  · intro bcs s s2 v restStack h hstk
    simp only [evaluate, h, hstk]
  · intro bcs s s2 h hstk
    simp only [evaluate, h, hstk]
  · simp [evaluate, evaluateBytecodes, Interpreter.new]

/-- Concrete instance of `C7_result_from_stack_top`: two leftover values,
only the top is returned, no error. -/
theorem C7_result_from_stack_top_witness :
    evaluate Interpreter.new [ByteCode.loadVal 3, ByteCode.loadVal 4] = .ok (4, ⟨[3], []⟩) :=
  C7_result_from_stack_top.1 [ByteCode.loadVal 3, ByteCode.loadVal 4] Interpreter.new
    ⟨[4, 3], []⟩ 4 [3] (by simp [evaluateBytecodes, Interpreter.new]) rfl

/-- Claim C8: each malformed-program case fails with its specific error at
the offending instruction — `WriteVariable` on an empty stack with
`MissingValueForBinding`, `ReadVariable` of an unbound name with
`UnknownVariable`, a binary operator over fewer than two stack values with
`InsufficientOperands` — and when the condition does not hold, the
write/read step instead succeeds and the walk continues. -/
theorem C8_malformed_program_errors :
    (∀ (v : String) (rest : List ByteCode) (vars : List (String × Int)),
        evaluateBytecodes (ByteCode.writeVar v :: rest) ⟨[], vars⟩ =
          .err .missingValueForBinding) ∧
    (∀ (v : String) (n : Int) (tl : List Int) (rest : List ByteCode)
        (vars : List (String × Int)),
        evaluateBytecodes (ByteCode.writeVar v :: rest) ⟨n :: tl, vars⟩ =
          evaluateBytecodes rest ⟨tl, (v, n) :: vars⟩) ∧
    (∀ (v : String) (rest : List ByteCode) (s : Interpreter),
        s.variables_map.lookup v = none →
        evaluateBytecodes (ByteCode.readVar v :: rest) s = .err .unknownVariable) ∧
    (∀ (v : String) (n : Int) (rest : List ByteCode) (s : Interpreter),
        s.variables_map.lookup v = some n →
        evaluateBytecodes (ByteCode.readVar v :: rest) s =
          evaluateBytecodes rest ⟨n :: s.number_stack, s.variables_map⟩) ∧
    (∀ (bc : ByteCode) (rest : List ByteCode) (s : Interpreter),
        bc ∈ [ByteCode.add, ByteCode.subtract, ByteCode.multiply,
              ByteCode.divide, ByteCode.modulo] →
        s.number_stack.length < 2 →
        evaluateBytecodes (bc :: rest) s = .err .insufficientOperands) := by
  refine ⟨?_, ?_, ?_, ?_, ?_⟩
  · intro v rest vars
    simp [evaluateBytecodes, bindVariable]
  · intro v n tl rest vars
    simp [evaluateBytecodes, bindVariable]
  · intro v rest s h
    simp [evaluateBytecodes, readVariable, h]
  · intro v n rest s h
    simp [evaluateBytecodes, readVariable, h]
  · intro bc rest s hbc hlen
    obtain ⟨stack, vars⟩ := s
    have hbc2 : bc = ByteCode.add ∨ bc = ByteCode.subtract ∨ bc = ByteCode.multiply ∨
        bc = ByteCode.divide ∨ bc = ByteCode.modulo := by simpa using hbc
    have hstack : stack = [] ∨ ∃ x, stack = [x] := by
      rcases stack with _ | ⟨x, _ | ⟨y, tl⟩⟩
      · exact Or.inl rfl
      · exact Or.inr ⟨x, rfl⟩
      · exfalso
        simp only [List.length_cons] at hlen
        omega
    rcases hbc2 with rfl | rfl | rfl | rfl | rfl <;>
      rcases hstack with h0 | ⟨x, h1⟩ <;> subst_vars <;>
        simp [evaluateBytecodes, binaryCalculus, performBinaryOperation, Outcome.bind]

/-- Concrete instances of `C8_malformed_program_errors`. -/
theorem C8_malformed_program_errors_witness :
    evaluateBytecodes [ByteCode.writeVar "x"] ⟨[], []⟩ = .err .missingValueForBinding ∧
    evaluateBytecodes [ByteCode.readVar "x"] ⟨[], []⟩ = .err .unknownVariable ∧
    evaluateBytecodes [ByteCode.loadVal 5, ByteCode.add] ⟨[], []⟩ =
      .err .insufficientOperands := by
  refine ⟨C8_malformed_program_errors.1 "x" [] [],
    C8_malformed_program_errors.2.2.1 "x" [] ⟨[], []⟩ (by decide), ?_⟩
  have hstep : evaluateBytecodes [ByteCode.loadVal 5, ByteCode.add] ⟨[], []⟩ =
      evaluateBytecodes [ByteCode.add] ⟨[5], []⟩ := by
    simp [evaluateBytecodes]
  rw [hstep]
  exact C8_malformed_program_errors.2.2.2.2 ByteCode.add [] ⟨[5], []⟩ (by decide) (by decide)

/-- Claim C10: with at least two stack values and a zero on top, `Divide`
and `Modulo` produce the runtime fault that models the Rust
divide-by-zero panic — not any of the six `EvalError` kinds. -/
theorem C10_division_by_zero_unguarded :
    ∀ (b : Int) (restStack : List Int) (vars : List (String × Int)),
      performBinaryOperation ByteCode.divide (some 0) (some b) = .fault ∧
      performBinaryOperation ByteCode.modulo (some 0) (some b) = .fault ∧
      binaryCalculus ByteCode.divide ⟨0 :: b :: restStack, vars⟩ = .fault ∧
      binaryCalculus ByteCode.modulo ⟨0 :: b :: restStack, vars⟩ = .fault ∧
      (∀ e : EvalError, binaryCalculus ByteCode.divide ⟨0 :: b :: restStack, vars⟩ ≠ .err e) ∧
      (∀ e : EvalError, binaryCalculus ByteCode.modulo ⟨0 :: b :: restStack, vars⟩ ≠ .err e) := by
  intro b restStack vars
  have hd : binaryCalculus ByteCode.divide ⟨0 :: b :: restStack, vars⟩ = .fault := rfl
  have hm : binaryCalculus ByteCode.modulo ⟨0 :: b :: restStack, vars⟩ = .fault := rfl
  exact ⟨rfl, rfl, hd, hm,
    fun e hc => Outcome.noConfusion (hd ▸ hc),
    fun e hc => Outcome.noConfusion (hm ▸ hc)⟩

/-- Concrete instance of `C10_division_by_zero_unguarded`: `5 / 0`
faults. -/
theorem C10_division_by_zero_unguarded_witness :
    binaryCalculus ByteCode.divide ⟨[0, 5], []⟩ = .fault :=
  (C10_division_by_zero_unguarded 5 [] []).2.2.1

/-- Claim C1 names a code bug: a negative repeat count does not yield zero
iterations.  The source casts the popped `i32` to `usize`, so the count
`-1` becomes `2 ^ 64 - 1` and the body `LoadVal 7` is iterated that many
times (then walked through once more), leaving `2 ^ 64` copies of `7` on
the stack where the claim promises the loop is skipped. -/
theorem C1_negative_count_code_bug :
    i32AsUsize (-1) = 2 ^ 64 - 1 ∧
    evaluateBytecodes
        [ByteCode.loadVal (-1), ByteCode.loop, ByteCode.loadVal 7, ByteCode.endLoop]
        Interpreter.new = .ok ⟨List.replicate (2 ^ 64) 7, []⟩ := by
  have hcast : i32AsUsize (-1) = 2 ^ 64 - 1 := by
    unfold i32AsUsize
    norm_num
    rfl
  refine ⟨hcast, ?_⟩
  have hj : nextEndloopBytecode [ByteCode.loop, ByteCode.loadVal 7, ByteCode.endLoop] =
      .ok 2 := by decide
  rw [evaluateBytecodes_loadVal,
    evaluateBytecodes_loop hj (-1) Interpreter.new.number_stack Interpreter.new.variables_map]
  have htake : (([ByteCode.loadVal 7, ByteCode.endLoop] : List ByteCode).take (2 - 1)) =
      [ByteCode.loadVal 7] := rfl
  rw [htake, repeatBody_loadVal]
  show Outcome.bind (Outcome.ok ⟨List.replicate (i32AsUsize (-1)) 7 ++ [], []⟩)
      (evaluateBytecodes [ByteCode.loadVal 7, ByteCode.endLoop]) = _
  rw [show (Outcome.bind (Outcome.ok ⟨List.replicate (i32AsUsize (-1)) 7 ++ [], []⟩)
      (evaluateBytecodes [ByteCode.loadVal 7, ByteCode.endLoop])) =
      evaluateBytecodes [ByteCode.loadVal 7, ByteCode.endLoop]
        ⟨List.replicate (i32AsUsize (-1)) 7 ++ [], []⟩ from rfl]
  rw [List.append_nil, evaluateBytecodes_loadVal, evaluateBytecodes_endLoop,
    evaluateBytecodes_nil]
  rw [hcast, ← List.replicate_succ]
  have hsum : 2 ^ 64 - 1 + 1 = 2 ^ 64 := Nat.sub_add_cancel Nat.one_le_two_pow
  rw [hsum]

/-- Claim C3: a successful `evaluate` pops only the top value — the rest of
the number stack and the bindings carry over — so a second `evaluate` of
the empty sequence on the same instance returns the leftover value instead
of failing with `EmptyResult`. -/
theorem C3_leftover_stack_survives :
    (∀ (s : Interpreter) (bcs : List ByteCode) (v : Int) (s2 : Interpreter),
        evaluate s bcs = .ok (v, s2) →
        ∃ s1, evaluateBytecodes bcs s = .ok s1 ∧
          s1.number_stack = v :: s2.number_stack ∧
          s1.variables_map = s2.variables_map) ∧
    (∀ (s2 : Interpreter) (w : Int) (restStack : List Int),
        s2.number_stack = w :: restStack →
        evaluate s2 [] = .ok (w, ⟨restStack, s2.variables_map⟩)) := by
  constructor
  · intro s bcs v s2 h
    rcases he : evaluateBytecodes bcs s with s1 | e | _
    · rcases hstk : s1.number_stack with _ | ⟨n, r⟩
      · simp only [evaluate, he, hstk] at h
        exact Outcome.noConfusion h
      · simp only [evaluate, he, hstk, Outcome.ok.injEq, Prod.mk.injEq] at h
        obtain ⟨hv, hs⟩ := h
        subst hv
        subst hs
        exact ⟨s1, rfl, by rw [hstk], rfl⟩
    · simp only [evaluate, he] at h
      exact Outcome.noConfusion h
    · simp only [evaluate, he] at h
      exact Outcome.noConfusion h
  · intro s2 w restStack hstk
    obtain ⟨stk, vars⟩ := s2
    simp only at hstk
    subst hstk
    simp [evaluate, evaluateBytecodes]

/-- Concrete instance of `C3_leftover_stack_survives`: after
`LoadVal 1; LoadVal 2` returns `2` with `1` left behind, a second call on
the empty sequence returns `Ok 1`, not `EmptyResult`. -/
theorem C3_leftover_stack_survives_witness :
    (∃ s1, evaluateBytecodes [ByteCode.loadVal 1, ByteCode.loadVal 2] Interpreter.new =
        .ok s1 ∧ s1.number_stack = 2 :: [1] ∧ s1.variables_map = []) ∧
    evaluate ⟨[1], []⟩ [] = .ok (1, ⟨[], []⟩) :=
  ⟨C3_leftover_stack_survives.1 Interpreter.new [ByteCode.loadVal 1, ByteCode.loadVal 2]
      2 ⟨[1], []⟩ (by simp [evaluate, evaluateBytecodes, Interpreter.new]),
   C3_leftover_stack_survives.2 ⟨[1], []⟩ 1 [] rfl⟩

/-- Claim C9: on a reused instance, every binding visible in the state a
successful first `evaluate` returns is readable by `ReadVariable` in a
second call. -/
theorem C9_bindings_persist_across_calls :
    ∀ (s : Interpreter) (bcs : List ByteCode) (v : Int) (s2 : Interpreter)
      (x : String) (n : Int),
      evaluate s bcs = .ok (v, s2) → s2.variables_map.lookup x = some n →
      evaluate s2 [ByteCode.readVar x] = .ok (n, s2) := by
  intro s bcs v s2 x n hfirst hlookup
  simp [evaluate, evaluateBytecodes, readVariable, hlookup]

/-- Concrete instance of `C9_bindings_persist_across_calls`: `x` bound to
`5` in the first call is read back in the second. -/
theorem C9_bindings_persist_across_calls_witness :
    evaluate ⟨[], [("x", 5)]⟩ [ByteCode.readVar "x"] = .ok (5, ⟨[], [("x", 5)]⟩) :=
  C9_bindings_persist_across_calls Interpreter.new
    [ByteCode.loadVal 5, ByteCode.writeVar "x", ByteCode.loadVal 1] 1 ⟨[], [("x", 5)]⟩
    "x" 5
    (by simp [evaluate, evaluateBytecodes, bindVariable, Interpreter.new])
    (by decide)

/-- Claim C4: the sliced loop body is the sub-sequence strictly between the
`Loop` and the first `EndLoop` after it — the scan index points at an
`EndLoop` no earlier position holds, the slice is exactly positions `1` to
`j - 1`, the `EndLoop` marker is excluded from it, that slice is what the
handler iterates — and the scan has no depth counting: in
`Loop; Loop; EndLoop; LoadVal 1; EndLoop` the outer scan stops at index 2,
the inner loop's `EndLoop`. -/
theorem C4_first_endloop_delimits_body :
    (∀ (rest : List ByteCode) (j : Nat),
        nextEndloopBytecode (ByteCode.loop :: rest) = .ok j →
        (ByteCode.loop :: rest)[j]? = some ByteCode.endLoop ∧
        (∀ i, i < j → (ByteCode.loop :: rest)[i]? ≠ some ByteCode.endLoop) ∧
        rest.take (j - 1) = ((ByteCode.loop :: rest).take j).drop 1 ∧
        ByteCode.endLoop ∉ rest.take (j - 1)) ∧
    (∀ (rest : List ByteCode) (j : Nat) (k : Int) (stackRest : List Int)
        (vars : List (String × Int)),
        nextEndloopBytecode (ByteCode.loop :: rest) = .ok j →
        evaluateBytecodes (ByteCode.loop :: rest) ⟨k :: stackRest, vars⟩ =
          Outcome.bind (repeatBody (rest.take (j - 1)) (i32AsUsize k) ⟨stackRest, vars⟩)
            (evaluateBytecodes rest)) ∧
    nextEndloopBytecode
        [ByteCode.loop, ByteCode.loop, ByteCode.endLoop, ByteCode.loadVal 1,
         ByteCode.endLoop] = .ok 2 := by
  refine ⟨?_, ?_, by decide⟩
  · intro rest j hj
    obtain ⟨hat, hmin⟩ := nextEndloopBytecode_first hj
    have hj1 : 1 ≤ j := by
      rcases Nat.eq_zero_or_pos j with rfl | h
      · simp at hat
      · exact h
    obtain ⟨j', rfl⟩ : ∃ j', j = j' + 1 := ⟨j - 1, (Nat.sub_add_cancel hj1).symm⟩
    refine ⟨hat, hmin, ?_, ?_⟩
    · simp [List.take_succ_cons]
    · intro hmem
      rw [List.mem_iff_getElem?] at hmem
      obtain ⟨i, hi⟩ := hmem
      obtain ⟨hilen, -⟩ := List.getElem?_eq_some_iff.mp hi
      have hij : i < j' + 1 - 1 := by
        simp only [List.length_take] at hilen
        omega
      rw [List.getElem?_take_of_lt hij] at hi
      have hup : (ByteCode.loop :: rest)[i + 1]? = some ByteCode.endLoop := by
        rw [List.getElem?_cons_succ]
        exact hi
      exact hmin (i + 1) (by omega) hup
  · intro rest j k stackRest vars hj
    exact evaluateBytecodes_loop hj k stackRest vars

/-- Concrete instances of `C4_first_endloop_delimits_body`. -/
theorem C4_first_endloop_delimits_body_witness :
    ((ByteCode.loop :: [ByteCode.loadVal 7, ByteCode.endLoop])[2]? =
        some ByteCode.endLoop ∧
      (∀ i, i < 2 →
        (ByteCode.loop :: [ByteCode.loadVal 7, ByteCode.endLoop])[i]? ≠
          some ByteCode.endLoop) ∧
      ([ByteCode.loadVal 7, ByteCode.endLoop] : List ByteCode).take (2 - 1) =
        (((ByteCode.loop :: [ByteCode.loadVal 7, ByteCode.endLoop]) :
          List ByteCode).take 2).drop 1 ∧
      ByteCode.endLoop ∉ ([ByteCode.loadVal 7, ByteCode.endLoop] : List ByteCode).take (2 - 1)) ∧
    evaluateBytecodes (ByteCode.loop :: [ByteCode.loadVal 7, ByteCode.endLoop])
        ⟨(3 : Int) :: [], []⟩ =
      Outcome.bind
        (repeatBody (([ByteCode.loadVal 7, ByteCode.endLoop] : List ByteCode).take (2 - 1))
          (i32AsUsize 3) ⟨[], []⟩)
        (evaluateBytecodes [ByteCode.loadVal 7, ByteCode.endLoop]) :=
  ⟨C4_first_endloop_delimits_body.1 [ByteCode.loadVal 7, ByteCode.endLoop] 2 (by decide),
   C4_first_endloop_delimits_body.2.1 [ByteCode.loadVal 7, ByteCode.endLoop] 2 3 [] []
     (by decide)⟩

/-- Claim C6 is false on the code at the specification's own example.
Under the claimed "body exactly `k` times" reading (the evaluator
`claimedEvaluateBytecodes`, which resumes past the `EndLoop`), the program
`x = 0; loop 5 {x = x + 5}; return x` would return 25; the code returns 30
because after `repeat` has run the body 5 times the walk re-executes the
body once more before reaching the `EndLoop`. -/
theorem C6_counterexample :
    evaluate Interpreter.new
        [ByteCode.loadVal 0, ByteCode.writeVar "x", ByteCode.loadVal 5, ByteCode.loop,
         ByteCode.readVar "x", ByteCode.loadVal 5, ByteCode.add, ByteCode.writeVar "x",
         ByteCode.endLoop, ByteCode.readVar "x"] =
      .ok (30, ⟨[], [("x", 30), ("x", 25), ("x", 20), ("x", 15), ("x", 10), ("x", 5),
        ("x", 0)]⟩) ∧
    claimedEvaluate Interpreter.new
        [ByteCode.loadVal 0, ByteCode.writeVar "x", ByteCode.loadVal 5, ByteCode.loop,
         ByteCode.readVar "x", ByteCode.loadVal 5, ByteCode.add, ByteCode.writeVar "x",
         ByteCode.endLoop, ByteCode.readVar "x"] =
      .ok (25, ⟨[], [("x", 25), ("x", 20), ("x", 15), ("x", 10), ("x", 5), ("x", 0)]⟩) ∧
    evaluate Interpreter.new
        [ByteCode.loadVal 0, ByteCode.writeVar "x", ByteCode.loadVal 5, ByteCode.loop,
         ByteCode.readVar "x", ByteCode.loadVal 5, ByteCode.add, ByteCode.writeVar "x",
         ByteCode.endLoop, ByteCode.readVar "x"] ≠
      claimedEvaluate Interpreter.new
        [ByteCode.loadVal 0, ByteCode.writeVar "x", ByteCode.loadVal 5, ByteCode.loop,
         ByteCode.readVar "x", ByteCode.loadVal 5, ByteCode.add, ByteCode.writeVar "x",
         ByteCode.endLoop, ByteCode.readVar "x"] := by
  have hcode : evaluate Interpreter.new
      [ByteCode.loadVal 0, ByteCode.writeVar "x", ByteCode.loadVal 5, ByteCode.loop,
       ByteCode.readVar "x", ByteCode.loadVal 5, ByteCode.add, ByteCode.writeVar "x",
       ByteCode.endLoop, ByteCode.readVar "x"] =
      .ok (30, ⟨[], [("x", 30), ("x", 25), ("x", 20), ("x", 15), ("x", 10), ("x", 5),
        ("x", 0)]⟩) := by
    simp [evaluate, evaluateBytecodes, repeatBody, nextEndloopBytecode, bindVariable,
      readVariable, binaryCalculus, performBinaryOperation, Outcome.bind,
      Interpreter.new, i32AsUsize, List.lookup]
  have hclaimed : claimedEvaluate Interpreter.new
      [ByteCode.loadVal 0, ByteCode.writeVar "x", ByteCode.loadVal 5, ByteCode.loop,
       ByteCode.readVar "x", ByteCode.loadVal 5, ByteCode.add, ByteCode.writeVar "x",
       ByteCode.endLoop, ByteCode.readVar "x"] =
      .ok (25, ⟨[], [("x", 25), ("x", 20), ("x", 15), ("x", 10), ("x", 5), ("x", 0)]⟩) := by
    simp [claimedEvaluate, claimedEvaluateBytecodes, claimedRepeatBody, nextEndloopBytecode,
      bindVariable, readVariable, binaryCalculus, performBinaryOperation, Outcome.bind,
      Interpreter.new, i32AsUsize, List.lookup]
  refine ⟨hcode, hclaimed, ?_⟩
  rw [hcode, hclaimed]
  intro hc
  injection hc with hpair
  exact absurd (congrArg Prod.fst hpair) (by decide)

/-- Claim C6, amended: the `Loop` handler iterates the body `k` times, but
the enclosing walk then resumes at the instruction after the `Loop`, so a
loop-marker-free body between a `Loop` and its `EndLoop` executes `k + 1`
times in total before evaluation continues after the `EndLoop`; on the
specification's example (`x = 0`, count 5, body `x = x + 5`) this is six
executions, leaving `x = 30`. -/
theorem C6_loop_body_executions :
    (∀ (body after : List ByteCode) (k : Nat) (stackRest : List Int)
        (vars : List (String × Int)),
        straightLine body → k < 2 ^ 31 →
        evaluateBytecodes (ByteCode.loop :: (body ++ ByteCode.endLoop :: after))
            ⟨(k : Int) :: stackRest, vars⟩ =
          Outcome.bind (repeatBody body (k + 1) ⟨stackRest, vars⟩)
            (evaluateBytecodes after)) ∧
    evaluate Interpreter.new
        [ByteCode.loadVal 0, ByteCode.writeVar "x", ByteCode.loadVal 5, ByteCode.loop,
         ByteCode.readVar "x", ByteCode.loadVal 5, ByteCode.add, ByteCode.writeVar "x",
         ByteCode.endLoop, ByteCode.readVar "x"] =
      .ok (30, ⟨[], [("x", 30), ("x", 25), ("x", 20), ("x", 15), ("x", 10), ("x", 5),
        ("x", 0)]⟩) := by
  constructor
  · intro body after k stackRest vars hsl hk
    have hb : ByteCode.endLoop ∉ body := fun hmem => (hsl _ hmem).2 rfl
    have hj := @nextEndloopBytecode_delimited body after hb
    rw [evaluateBytecodes_loop hj (k : Int) stackRest vars]
    have hklt : (k : Int) < 2 ^ 64 := by
      have h31 : (k : Int) < 2 ^ 31 := by exact_mod_cast hk
      calc (k : Int) < 2 ^ 31 := h31
        _ < 2 ^ 64 := by norm_num
    have hcast : i32AsUsize (k : Int) = k := by
      unfold i32AsUsize
      rw [Int.emod_eq_of_lt (Int.natCast_nonneg k) hklt]
      simp
    have htake : ((body ++ ByteCode.endLoop :: after).take (body.length + 1 - 1)) = body := by
      simp only [Nat.add_sub_cancel]
      exact List.take_left body (ByteCode.endLoop :: after)
    rw [htake, hcast]
    have happ : evaluateBytecodes (body ++ ByteCode.endLoop :: after) =
        fun s' => Outcome.bind (evaluateBytecodes body s')
          (evaluateBytecodes (ByteCode.endLoop :: after)) :=
      funext fun s' => evaluateBytecodes_append_straight hsl _ s'
    rw [happ]
    have hend : evaluateBytecodes (ByteCode.endLoop :: after) = evaluateBytecodes after :=
      funext fun s => evaluateBytecodes_endLoop after s
    rw [hend, ← Outcome.bind_assoc, ← repeatBody_succ_last]
  · simp [evaluate, evaluateBytecodes, repeatBody, nextEndloopBytecode, bindVariable,
      readVariable, binaryCalculus, performBinaryOperation, Outcome.bind,
      Interpreter.new, i32AsUsize, List.lookup]

/-- Concrete instance of `C6_loop_body_executions`: a count of 1 means two
executions of the body. -/
theorem C6_loop_body_executions_witness :
    evaluateBytecodes
        (ByteCode.loop :: ([ByteCode.loadVal 7] ++ ByteCode.endLoop :: []))
        ⟨((1 : Nat) : Int) :: [], []⟩ =
      Outcome.bind (repeatBody [ByteCode.loadVal 7] (1 + 1) ⟨[], []⟩)
        (evaluateBytecodes []) :=
  C6_loop_body_executions.1 [ByteCode.loadVal 7] [] 1 [] [] (by decide) (by norm_num)

end SmallBytecode
